import Mathlib

/-!
Verification development for the AskLang repository.

We shallowly embed the citation helpers of `src/utils/formatting.py`
(`extract_urls`, `collect_urls_from_langgraph_messages`,
`enforce_grounded_citations`) and the agent-construction helpers of
`src/graph.py` (`_require_env`, `build_agent`, `_normalize_history`,
`_inject_preamble`), and prove the specification claims about them.

Strings are Lean `String`s; Python lists are Lean `List`s; a Python
`set` used only for membership is modelled by list membership, and where
its iteration order matters (`list(allowed_set)[:3]`) we model it as
first-insertion order and say so at the definition.
-/

namespace AskLang

/-- Code points matched by Python's `\s` in a `str` regex (the ASCII
whitespace and control separators plus the Unicode whitespace class). -/
def pySpaceCodes : List Nat :=
  [9, 10, 11, 12, 13, 28, 29, 30, 31, 32, 0x85, 0xa0, 0x1680,
   0x2000, 0x2001, 0x2002, 0x2003, 0x2004, 0x2005, 0x2006, 0x2007,
   0x2008, 0x2009, 0x200a, 0x2028, 0x2029, 0x202f, 0x205f, 0x3000]

/-- Whether a character matches `\s` in the URL regex. -/
def isPySpace (c : Char) : Bool := pySpaceCodes.contains c.toNat

/-- Character class `[^\s)]` of the URL regex `_URL_RE`:
anything that is neither whitespace nor a closing parenthesis. -/
def isBodyChar (c : Char) : Bool := !(isPySpace c) && !(c == ')')

/-- Members of the strip set of `url.rstrip(".,);]}")`. -/
def isStripChar (c : Char) : Bool :=
  c == '.' || c == ',' || c == ')' || c == ';' || c == ']' || c == '\x7d'

/-- Case-insensitive match of one (lower-case ASCII) pattern letter,
as `re.IGNORECASE` treats the literal letters of `https?`. -/
def isCI (a c : Char) : Bool := c == a || c == a.toUpper

/-- Match the literal `://` of the regex at the head of the input,
returning the remainder. -/
def matchCSS (l : List Char) : Option (List Char) :=
  match l with
  | a :: b :: c :: rest =>
    if a = ':' ∧ b = '/' ∧ c = '/' then some rest else none
  | _ => none

/-- Match `https?://` (case-insensitive letters, greedy optional `s`)
at the head of the input; returns the matched characters and the rest. -/
def matchScheme (cs : List Char) : Option (List Char × List Char) :=
  match cs with
  | c1 :: c2 :: c3 :: c4 :: rest =>
    if isCI 'h' c1 && isCI 't' c2 && isCI 't' c3 && isCI 'p' c4 then
      match rest with
      | c5 :: rest2 =>
        if isCI 's' c5 then
          match matchCSS rest2 with
          | some rest3 => some ([c1, c2, c3, c4, c5, ':', '/', '/'], rest3)
          | none =>
            match matchCSS rest with
            | some rest3 => some ([c1, c2, c3, c4, ':', '/', '/'], rest3)
            | none => none
        else
          match matchCSS rest with
          | some rest3 => some ([c1, c2, c3, c4, ':', '/', '/'], rest3)
          | none => none
      | [] => none
    else none
  | _ => none

/-- One attempt of `_URL_RE` at the current position: the scheme followed
by a non-empty maximal run of `[^\s)]` characters. Returns the whole
match and the remaining input. -/
def tryMatch (cs : List Char) : Option (List Char × List Char) :=
  match matchScheme cs with
  | none => none
  | some (sch, rest) =>
    let body := rest.takeWhile isBodyChar
    if body.isEmpty then none
    else some (sch ++ body, rest.dropWhile isBodyChar)

/-- Fuelled scanner realising `_URL_RE.finditer`: at each position try a
match; on success continue after the match (non-overlapping), otherwise
advance one character. The fuel is the input length, which each step
strictly decreases, so it never runs out. -/
def findUrlsGo : Nat → List Char → List (List Char)
  | 0, _ => []
  | _ + 1, [] => []
  | fuel + 1, c :: cs =>
    match tryMatch (c :: cs) with
    | some (m, rest) => m :: findUrlsGo fuel rest
    | none => findUrlsGo fuel cs

/-- All raw matches of `_URL_RE` in a character list, in text order. -/
def findUrls (cs : List Char) : List (List Char) := findUrlsGo cs.length cs

/-- Model of Python's `url.rstrip(".,);]}")` on a character list. -/
def rstripPunct (l : List Char) : List Char :=
  (l.reverse.dropWhile isStripChar).reverse

/-- A character list beginning with `http://` up to letter case. -/
def httpPrefix7 : List Char → Bool
  | c1 :: c2 :: c3 :: c4 :: ':' :: '/' :: '/' :: _ =>
    isCI 'h' c1 && isCI 't' c2 && isCI 't' c3 && isCI 'p' c4
  | _ => false

/-- A character list beginning with `https://` up to letter case. -/
def httpPrefix8 : List Char → Bool
  | c1 :: c2 :: c3 :: c4 :: c5 :: ':' :: '/' :: '/' :: _ =>
    isCI 'h' c1 && isCI 't' c2 && isCI 't' c3 && isCI 'p' c4 && isCI 's' c5
  | _ => false

/-- A string beginning with `http://` or `https://`, case-insensitively. -/
def startsWithHttpCI (u : String) : Bool :=
  httpPrefix7 u.data || httpPrefix8 u.data

/-- The stripped matches of the URL regex in a text, in the order they
occur in the text, before deduplication. -/
def rawUrls (s : String) : List String :=
  (findUrls s.data).map (fun m => String.mk (rstripPunct m))

/-- The `seen`-set loop of `extract_urls` (and of the collector): keep
each element whose first occurrence this is, skipping anything already
in `seen`. -/
def dedupSeen (seen : List String) : List String → List String
  | [] => []
  | x :: xs =>
    if seen.contains x then dedupSeen seen xs
    else x :: dedupSeen (x :: seen) xs

/-- Embedding of `extract_urls` (src/utils/formatting.py): regex matches,
each right-stripped of `.,);]}`, deduplicated by exact string keeping the
first occurrence; empty input short-circuits to `[]`. -/
def extract_urls (s : String) : List String :=
  if s = "" then [] else dedupSeen [] (rawUrls s)

/-- The `text` parameter may be `None` in Python; `if not text` treats
`None` like the empty string. -/
def extractUrlsOpt : Option String → List String
  | none => []
  | some s => extract_urls s

/-- Model of `u.split("#")[0]`: the prefix of `u` before the first `#`. -/
def stripFrag (u : String) : String :=
  String.mk (u.data.takeWhile (fun c => !(c == '#')))

/-- The `grounded` loop of `enforce_grounded_citations`: for each answer
URL in order, append its fragment-stripped form when that form is in the
stripped allowed set and not yet in `grounded`. -/
def groundLoop (allowedStrip : List String) (grounded : List String) :
    List String → List String
  | [] => grounded
  | u :: us =>
    if allowedStrip.contains (stripFrag u) && !(grounded.contains (stripFrag u)) then
      groundLoop allowedStrip (grounded ++ [stripFrag u]) us
    else groundLoop allowedStrip grounded us

/-- Model of the Python set `allowed_set = \x7bu.split("#")[0] for u in
allowed_urls\x7d` *as an iterable*: its distinct elements. CPython's set
iteration order is implementation-defined; we model it as first-insertion
order. Membership and cardinality are faithful regardless. -/
def allowedSetList (allowed : List String) : List String :=
  dedupSeen [] (allowed.map stripFrag)

/-- Embedding of `enforce_grounded_citations` (src/utils/formatting.py).
Empty `allowed_urls` passes `extract_urls answer` through; otherwise the
grounded loop runs, and if it kept nothing the fallback returns
`list(allowed_set)[:3]` (see `allowedSetList` for the order caveat). -/
def enforce_grounded_citations (answer : String) (allowed : List String) :
    List String :=
  if allowed.isEmpty then extract_urls answer
  else
    let grounded := groundLoop (allowed.map stripFrag) [] (extract_urls answer)
    if grounded.isEmpty then (allowedSetList allowed).take 3 else grounded

/-- The grounded list of `enforce_grounded_citations`, rewritten as the
first-occurrence deduplication of the stripped answer URLs that pass the
allowed-set membership filter. -/
def groundedList (answer : String) (allowed : List String) : List String :=
  dedupSeen [] (((extract_urls answer).map stripFrag).filter
    (fun b => (allowed.map stripFrag).contains b))

/-- Substring test, Python's `pat in hay` on strings (the empty pattern
is contained in everything). -/
def containsSub (hay pat : String) : Bool :=
  hay.data.tails.any (fun t => pat.data.isPrefixOf t)

/-- ASCII lower-casing, modelling `str.lower()` on the labels involved. -/
def toLowerStr (s : String) : String := String.mk (s.data.map Char.toLower)

/-- A LangGraph message as `collect_urls_from_langgraph_messages` probes
it: `tool_name` and `name` attributes (empty string when absent, as the
`getattr(_, _, "")` default), the `content` attribute, and `flat`, the
`str(msg)` fallback used by `_flatten` when the content is falsy. -/
structure LGMessage where
  tool_name : String
  name : String
  content : String
  flat : String

/-- The label `getattr(msg, "tool_name", "") or getattr(msg, "name", "")`. -/
def effectiveToolName (m : LGMessage) : String :=
  if m.tool_name = "" then m.name else m.tool_name

/-- The content scanned: `msg.content`, or `_flatten(msg)` when falsy. -/
def msgContent (m : LGMessage) : String :=
  if m.content = "" then m.flat else m.content

/-- Whether the collector scans this message: a truthy tool-name label
must contain `tavily`, `search` or `tool` in lower case; an unlabelled
message is scanned when its content contains `http`. -/
def shouldScan (m : LGMessage) : Bool :=
  if effectiveToolName m = "" then containsSub (msgContent m) "http"
  else
    containsSub (toLowerStr (effectiveToolName m)) "tavily" ||
    containsSub (toLowerStr (effectiveToolName m)) "search" ||
    containsSub (toLowerStr (effectiveToolName m)) "tool"

/-- Inner loop of the collector: append the URLs of one message that are
not yet in `seen`, returning the grown `seen` and the appended URLs. -/
def addUrls (seen : List String) : List String → List String × List String
  | [] => (seen, [])
  | u :: us =>
    if seen.contains u then addUrls seen us
    else
      let p := addUrls (u :: seen) us
      (p.1, u :: p.2)

/-- Outer loop of `collect_urls_from_langgraph_messages` over messages,
threading the shared `seen` set. -/
def collectGo (seen : List String) : List LGMessage → List String
  | [] => []
  | m :: ms =>
    if shouldScan m then
      let p := addUrls seen (extract_urls (msgContent m))
      p.2 ++ collectGo p.1 ms
    else collectGo seen ms

/-- Embedding of `collect_urls_from_langgraph_messages`
(src/utils/formatting.py). -/
def collect_urls_from_langgraph_messages (msgs : List LGMessage) : List String :=
  collectGo [] msgs

/-- An environment for `os.getenv`: an association of variable names to
values, absent variables mapping to `none`. -/
def Env : Type := List (String × String)

/-- Model of `os.getenv`. -/
def getenv (env : Env) (k : String) : Option String :=
  (List.find? (fun p => p.1 == k) env).map Prod.snd

/-- The message of the `RuntimeError` raised by `_require_env`. -/
def missingEnvMsg (v : String) : String :=
  "Missing environment variable: " ++ v ++
    ". Please set it in your .env or your shell session."

/-- Embedding of `_require_env` (src/graph.py): return the variable's
value, or raise (here: `Except.error`) the helpful message when the
variable is unset or empty (`if not val`). -/
def require_env (env : Env) (v : String) : Except String String :=
  match getenv env v with
  | some val => if val = "" then .error (missingEnvMsg v) else .ok val
  | none => .error (missingEnvMsg v)

/-- Python's `a or b` on an optional string: `b` when `a` is `None` or
empty. -/
def truthyOr (a : Option String) (b : String) : String :=
  match a with
  | some s => if s = "" then b else s
  | none => b

/-- The model name resolution `model_name or os.getenv("OPENAI_MODEL")
or "gpt-4o-mini"` of `build_agent`. -/
def resolveModel (env : Env) (modelName : Option String) : String :=
  truthyOr modelName (truthyOr (getenv env "OPENAI_MODEL") "gpt-4o-mini")

/-- What `build_agent` assembles after its credential checks succeed: the
resolved chat model name and the Tavily tool's `max_results`. The
external constructors (`ChatOpenAI`, `TavilySearch`,
`create_react_agent`) are only reached on this success path. -/
structure AgentConfig where
  resolvedModel : String
  tavilyMaxResults : Nat
deriving DecidableEq

/-- Embedding of `build_agent` (src/graph.py): check `OPENAI_API_KEY`
then `TAVILY_API_KEY`; only if both checks pass is the model/search/agent
construction reached. An error short-circuits before any of it. -/
def build_agent (env : Env) (modelName : Option String) :
    Except String AgentConfig := do
  let _ ← require_env env "OPENAI_API_KEY"
  let _ ← require_env env "TAVILY_API_KEY"
  pure { resolvedModel := resolveModel env modelName, tavilyMaxResults := 5 }

/-- A raw history item as `_normalize_history` classifies it: a 2-tuple
(fields already stringified), a dict with optional `role`/`content`
entries, or anything else (carried as its `str()` form). -/
inductive RawMsg where
  | pair (role content : String)
  | dict (role content : Option String)
  | other (s : String)

/-- Normalisation of one history item, per `_normalize_history`. -/
def normItem : RawMsg → String × String
  | .pair r c => (r, c)
  | .dict r c => (r.getD "user", c.getD "")
  | .other s => ("user", s)

/-- Embedding of `_normalize_history` (src/graph.py). -/
def normalize_history (h : List RawMsg) : List (String × String) :=
  h.map normItem

/-- Embedding of `_inject_preamble` (src/graph.py): normalise, then keep
the history as-is when its first message is a system message containing
the preamble, else prepend `("system", preamble)`. -/
def inject_preamble (raw : List RawMsg) (preamble : String) :
    List (String × String) :=
  let history := normalize_history raw
  match history with
  | [] => [("system", preamble)]
  | (r, c) :: _ =>
    if r = "system" && containsSub c preamble then history
    else ("system", preamble) :: history

/-- `_inject_preamble` applied to an already-normalised (role, content)
history, as happens when the agent's own output messages are fed back. -/
def injectPairs (h : List (String × String)) (preamble : String) :
    List (String × String) :=
  inject_preamble (h.map (fun rc => RawMsg.pair rc.1 rc.2)) preamble

/-- Index of the first occurrence of a string in a list (list length when
absent); used to state first-occurrence ordering. -/
def firstIdx (a : String) : List String → Nat
  | [] => 0
  | b :: bs => if b = a then 0 else firstIdx a bs + 1

/-! Lemmas about the `seen`-set deduplication loop. -/

lemma contains_eq_mem (l : List String) (x : String) :
    l.contains x = true ↔ x ∈ l := by
  simp [List.contains, List.elem_iff]

lemma dedupSeen_cons (seen : List String) (x : String) (xs : List String) :
    dedupSeen seen (x :: xs) =
      if x ∈ seen then dedupSeen seen xs else x :: dedupSeen (x :: seen) xs := by
  by_cases h : x ∈ seen <;> simp [dedupSeen, List.elem_iff, h, List.contains]

lemma mem_dedupSeen {u : String} :
    ∀ (l seen : List String), u ∈ dedupSeen seen l ↔ u ∈ l ∧ u ∉ seen := by
  intro l
  induction l with
  | nil => intro seen; simp [dedupSeen]
  | cons x xs ih =>
    intro seen
    by_cases hx : x ∈ seen
    · rw [dedupSeen_cons, if_pos hx, ih]
      constructor
      · rintro ⟨h1, h2⟩
        exact ⟨List.mem_cons_of_mem _ h1, h2⟩
      · rintro ⟨h1, h2⟩
        rcases List.mem_cons.mp h1 with rfl | h1
        · exact absurd hx h2
        · exact ⟨h1, h2⟩
    · rw [dedupSeen_cons, if_neg hx]
      simp only [List.mem_cons, ih]
      constructor
      · rintro (rfl | ⟨h1, h2⟩)
        · exact ⟨Or.inl rfl, hx⟩
        · constructor
          · exact Or.inr h1
          · intro hm
            exact h2 (Or.inr hm)
      · rintro ⟨rfl | h1, h2⟩
        · exact Or.inl rfl
        · by_cases hux : u = x
          · exact Or.inl hux
          · refine Or.inr ⟨h1, fun hm => ?_⟩
            rcases hm with hh | hh
            · exact hux hh
            · exact h2 hh

lemma dedupSeen_nodup :
    ∀ (l seen : List String), (dedupSeen seen l).Nodup := by
  intro l
  induction l with
  | nil => intro seen; simp [dedupSeen]
  | cons x xs ih =>
    intro seen
    by_cases hx : x ∈ seen
    · rw [dedupSeen_cons, if_pos hx]; exact ih seen
    · rw [dedupSeen_cons, if_neg hx]
      refine List.nodup_cons.mpr ⟨fun hm => ?_, ih (x :: seen)⟩
      exact ((mem_dedupSeen _ _).mp hm).2 (List.mem_cons_self _ _)

lemma dedupSeen_congr (s1 s2 : List String)
    (h : ∀ x, x ∈ s1 ↔ x ∈ s2) :
    ∀ l : List String, dedupSeen s1 l = dedupSeen s2 l := by
  intro l
  induction l generalizing s1 s2 with
  | nil => simp [dedupSeen]
  | cons x xs ih =>
    by_cases hx : x ∈ s1
    · rw [dedupSeen_cons, if_pos hx, dedupSeen_cons, if_pos ((h x).mp hx), ih _ _ h]
    · rw [dedupSeen_cons, if_neg hx, dedupSeen_cons,
        if_neg (fun hm => hx ((h x).mpr hm))]
      have h' : ∀ y, y ∈ x :: s1 ↔ y ∈ x :: s2 := by
        intro y; simp [List.mem_cons, h y]
      rw [ih _ _ h']

lemma dedupSeen_pairwise_firstIdx :
    ∀ (l seen : List String),
      (dedupSeen seen l).Pairwise (fun a b => firstIdx a l < firstIdx b l) := by
  intro l
  induction l with
  | nil => intro seen; simp [dedupSeen]
  | cons x xs ih =>
    intro seen
    have step : ∀ a, a ≠ x → firstIdx a (x :: xs) = firstIdx a xs + 1 := by
      intro a hne
      have hxa : ¬(x = a) := fun h => hne h.symm
      simp [firstIdx, hxa]
    by_cases hx : x ∈ seen
    · rw [dedupSeen_cons, if_pos hx]
      refine (ih seen).imp_of_mem ?_
      intro a b ha hb hr
      obtain ⟨ha1, ha2⟩ := (mem_dedupSeen _ _).mp ha
      obtain ⟨hb1, hb2⟩ := (mem_dedupSeen _ _).mp hb
      have hax : a ≠ x := fun h => ha2 (h ▸ hx)
      have hbx : b ≠ x := fun h => hb2 (h ▸ hx)
      rw [step a hax, step b hbx]
      omega
    · rw [dedupSeen_cons, if_neg hx]
      refine List.pairwise_cons.mpr ⟨?_, ?_⟩
      · intro b hb
        obtain ⟨hb1, hb2⟩ := (mem_dedupSeen _ _).mp hb
        have hbx : b ≠ x := fun h => hb2 (h ▸ List.mem_cons_self _ _)
        rw [step b hbx]
        simp [firstIdx]
      · refine (ih (x :: seen)).imp_of_mem ?_
        intro a b ha hb hr
        obtain ⟨ha1, ha2⟩ := (mem_dedupSeen _ _).mp ha
        obtain ⟨hb1, hb2⟩ := (mem_dedupSeen _ _).mp hb
        have hax : a ≠ x := fun h => ha2 (h ▸ List.mem_cons_self _ _)
        have hbx : b ≠ x := fun h => hb2 (h ▸ List.mem_cons_self _ _)
        rw [step a hax, step b hbx]
        omega

/-! Lemmas about the grounding loop. -/

lemma groundLoop_cons (as acc : List String) (u : String) (us : List String) :
    groundLoop as acc (u :: us) =
      if stripFrag u ∈ as ∧ stripFrag u ∉ acc then
        groundLoop as (acc ++ [stripFrag u]) us
      else groundLoop as acc us := by
  by_cases h1 : stripFrag u ∈ as <;> by_cases h2 : stripFrag u ∈ acc <;>
    simp [groundLoop, List.contains, List.elem_iff, h1, h2]

lemma groundLoop_eq_dedup (as : List String) :
    ∀ (l acc : List String),
      groundLoop as acc l =
        acc ++ dedupSeen acc ((l.map stripFrag).filter (fun b => as.contains b)) := by
  intro l
  induction l with
  | nil => intro acc; simp [groundLoop, dedupSeen]
  | cons u us ih =>
    intro acc
    rw [groundLoop_cons]
    by_cases has : stripFrag u ∈ as
    · by_cases hacc : stripFrag u ∈ acc
      · rw [if_neg (by simp [has, hacc]), ih acc]
        simp [List.filter_cons, has, dedupSeen_cons, hacc, List.contains,
          List.elem_iff]
      · rw [if_pos ⟨has, hacc⟩, ih (acc ++ [stripFrag u])]
        rw [dedupSeen_congr (acc ++ [stripFrag u]) (stripFrag u :: acc)
          (by intro y; simp [List.mem_append, List.mem_cons, or_comm])]
        simp [List.filter_cons, has, dedupSeen_cons, hacc, List.contains,
          List.elem_iff]
    · rw [if_neg (by simp [has]), ih acc]
      simp [List.filter_cons, has, List.contains, List.elem_iff]

lemma stripFrag_no_hash (u : String) : '#' ∉ (stripFrag u).data := by
  intro hm
  have := List.mem_takeWhile_imp (p := fun c => !(c == '#')) (l := u.data)
    (by simpa [stripFrag] using hm)
  simp at this

lemma enforce_eq (answer : String) (allowed : List String) (h : allowed ≠ []) :
    enforce_grounded_citations answer allowed =
      if groundedList answer allowed = [] then (allowedSetList allowed).take 3
      else groundedList answer allowed := by
  have hne : allowed.isEmpty = false := by
    cases allowed with
    | nil => exact absurd rfl h
    | cons a as => rfl
  unfold enforce_grounded_citations groundedList
  rw [hne]
  simp only [Bool.false_eq_true, if_neg, not_false_iff]
  rw [groundLoop_eq_dedup, List.nil_append]
  have hiff : ∀ L : List String, L.isEmpty = true ↔ L = [] := by
    intro L; cases L <;> simp
  by_cases hg :
      dedupSeen [] (((extract_urls answer).map stripFrag).filter
        (fun b => (allowed.map stripFrag).contains b)) = []
  · rw [if_pos ((hiff _).mpr hg), if_pos hg]
  · rw [if_neg (fun hc => hg ((hiff _).mp hc)), if_neg hg]

lemma mem_groundedList {u : String} {answer : String} {allowed : List String}
    (h : u ∈ groundedList answer allowed) :
    ∃ v ∈ extract_urls answer, u = stripFrag v := by
  have h1 := ((mem_dedupSeen _ _).mp h).1
  obtain ⟨hb, hfb⟩ := List.mem_filter.mp h1
  obtain ⟨v, hv, heq⟩ := List.mem_map.mp hb
  exact ⟨v, hv, heq.symm⟩

lemma mem_allowedSetList {u : String} {allowed : List String}
    (h : u ∈ allowedSetList allowed) :
    ∃ v ∈ allowed, u = stripFrag v := by
  have h1 := ((mem_dedupSeen _ _).mp h).1
  obtain ⟨v, hv, heq⟩ := List.mem_map.mp h1
  exact ⟨v, hv, heq.symm⟩

/-- C1 (counterexample). The claim as stated is false: for the answer
`"x https://a.com/1#sec"` and allowed list `["https://a.com/1#x"]`, the
filter returns `["https://a.com/1"]`, a string that occurs neither among
the URLs extracted from the answer nor among the allowed URLs — matching
is fragment-insensitive and the *stripped* form is returned. -/
theorem C1_counterexample :
    enforce_grounded_citations "x https://a.com/1#sec" ["https://a.com/1#x"] =
        ["https://a.com/1"] ∧
      "https://a.com/1" ∉ extract_urls "x https://a.com/1#sec" ∧
      "https://a.com/1" ∉ (["https://a.com/1#x"] : List String) := by
  refine ⟨by decide, by decide, by decide⟩

/-- C1 (amended). Every URL returned by `enforce_grounded_citations` is
an extracted answer URL, or the fragment-stripped form of an extracted
answer URL, or the fragment-stripped form of an allowed URL; the function
never fabricates a URL unrelated to both. -/
theorem C1_no_fabricated_urls (answer : String) (allowed : List String)
    (u : String) (hu : u ∈ enforce_grounded_citations answer allowed) :
    u ∈ extract_urls answer ∨
      (∃ v ∈ extract_urls answer, u = stripFrag v) ∨
      ∃ v ∈ allowed, u = stripFrag v := by
  by_cases hall : allowed = []
  · subst hall
    left
    simpa [enforce_grounded_citations] using hu
  · rw [enforce_eq answer allowed hall] at hu
    by_cases hg : groundedList answer allowed = []
    · rw [if_pos hg] at hu
      have hu' : u ∈ allowedSetList allowed := List.take_subset _ _ hu
      exact Or.inr (Or.inr (mem_allowedSetList hu'))
    · rw [if_neg hg] at hu
      exact Or.inr (Or.inl (mem_groundedList hu))

/-- C1 (witness). The amended theorem applied at a concrete input. -/
theorem C1_no_fabricated_urls_witness :
    "https://a.com/1" ∈
        enforce_grounded_citations "x https://a.com/1#sec" ["https://a.com/1#x"] ∧
      ("https://a.com/1" ∈ extract_urls "x https://a.com/1#sec" ∨
        (∃ v ∈ extract_urls "x https://a.com/1#sec",
          "https://a.com/1" = stripFrag v) ∨
        ∃ v ∈ (["https://a.com/1#x"] : List String),
          "https://a.com/1" = stripFrag v) :=
  ⟨by decide,
    C1_no_fabricated_urls "x https://a.com/1#sec" ["https://a.com/1#x"]
      "https://a.com/1" (by decide)⟩

/-- C2 (counterexample). The claim as stated is false: with
`allowed = ["https://a.com/1#x"]` and an answer citing no URLs, the
fallback returns `["https://a.com/1"]`, not the first entry of
`allowed_urls` — the fallback draws from the fragment-stripped set, not
from `allowed_urls` itself. -/
theorem C2_counterexample :
    enforce_grounded_citations "" ["https://a.com/1#x"] = ["https://a.com/1"] ∧
      enforce_grounded_citations "" ["https://a.com/1#x"] ≠
        (["https://a.com/1#x"] : List String).take 3 := by
  refine ⟨by decide, by decide⟩

/-- C2 (amended). When the allowed list is non-empty and no cited URL
matches it fragment-insensitively, the filter returns the first
`min 3 k` entries of the deduplicated fragment-stripped allowed list
(`allowedSetList`, which models the Python set's iteration order as
first-insertion order; CPython does not guarantee the order of
`allowed_urls`). -/
theorem C2_fallback_returns_stripped_allowed (answer : String)
    (allowed : List String) (hne : allowed ≠ [])
    (hno : ∀ u ∈ extract_urls answer, stripFrag u ∉ allowed.map stripFrag) :
    enforce_grounded_citations answer allowed = (allowedSetList allowed).take 3 := by
  rw [enforce_eq answer allowed hne]
  have hfil : ((extract_urls answer).map stripFrag).filter
      (fun b => (allowed.map stripFrag).contains b) = [] := by
    rw [List.filter_eq_nil_iff]
    intro b hb
    obtain ⟨v, hv, heq⟩ := List.mem_map.mp hb
    intro hc
    exact hno v hv (heq ▸ (contains_eq_mem _ _).mp hc)
  rw [if_pos (by rw [groundedList, hfil]; rfl)]

/-- C2 (witness). The amended theorem applied at a concrete input. -/
theorem C2_fallback_returns_stripped_allowed_witness :
    enforce_grounded_citations "" ["https://a.com/1#x"] =
      (allowedSetList ["https://a.com/1#x"]).take 3 :=
  C2_fallback_returns_stripped_allowed "" ["https://a.com/1#x"] (by decide)
    (by decide)

/-- C3 (counterexample). The claim as stated is false: when no cited URL
is grounded (here the answer cites none at all), the result is not the
empty list of kept cited URLs but the fallback from the allowed set. -/
theorem C3_counterexample :
    enforce_grounded_citations "no urls here" ["https://a.com/1"] =
        ["https://a.com/1"] ∧
      groundedList "no urls here" ["https://a.com/1"] = [] ∧
      (["https://a.com/1"] : List String) ≠ [] := by
  refine ⟨by decide, by decide, by decide⟩

/-- C3 (amended). Provided some cited URL matches the allowed set
fragment-insensitively (otherwise the fallback applies), the filter
returns, in the order the URLs appear in the answer, the
fragment-stripped forms of exactly those cited URLs whose stripped form
occurs among the stripped allowed forms, deduplicated by the stripped
form; in particular the worked example of the spec holds. -/
theorem C3_keeps_grounded_citations (answer : String) (allowed : List String)
    (hne : allowed ≠ [])
    (hsome : ∃ u ∈ extract_urls answer, stripFrag u ∈ allowed.map stripFrag) :
    enforce_grounded_citations answer allowed = groundedList answer allowed ∧
      enforce_grounded_citations "See https://a.com/1#sec and also https://c.com/3"
        ["https://a.com/1", "https://b.com/2"] = ["https://a.com/1"] := by
  constructor
  · rw [enforce_eq answer allowed hne]
    obtain ⟨u, hu, hmem⟩ := hsome
    have hin : stripFrag u ∈ groundedList answer allowed := by
      rw [groundedList, mem_dedupSeen]
      refine ⟨List.mem_filter.mpr ⟨List.mem_map.mpr ⟨u, hu, rfl⟩, ?_⟩, by simp⟩
      exact (contains_eq_mem _ _).mpr hmem
    rw [if_neg (List.ne_nil_of_mem hin)]
  · decide

/-- C3 (witness). The amended theorem applied at a concrete input. -/
theorem C3_keeps_grounded_citations_witness :
    enforce_grounded_citations "See https://a.com/1#sec and also https://c.com/3"
        ["https://a.com/1", "https://b.com/2"] =
      groundedList "See https://a.com/1#sec and also https://c.com/3"
        ["https://a.com/1", "https://b.com/2"] ∧
      enforce_grounded_citations "See https://a.com/1#sec and also https://c.com/3"
        ["https://a.com/1", "https://b.com/2"] = ["https://a.com/1"] :=
  C3_keeps_grounded_citations "See https://a.com/1#sec and also https://c.com/3"
    ["https://a.com/1", "https://b.com/2"] (by decide)
    ⟨"https://a.com/1#sec", by decide, by decide⟩

/-- C4 (confirmed). With an empty allowed list the Citation Grounding
Filter is the identity on `extract_urls`: it returns the answer's
extracted URLs unfiltered. -/
theorem C4_empty_allowed_passthrough (answer : String) :
    enforce_grounded_citations answer [] = extract_urls answer := by
  simp [enforce_grounded_citations]

/-- C9 (confirmed). For a non-empty allowed list, every URL the filter
returns is fragment-free: both the grounding and the fallback path
return `split("#")[0]` forms, which contain no `#`. -/
theorem C9_results_are_fragment_stripped (answer : String)
    (allowed : List String) (hne : allowed ≠ []) (u : String)
    (hu : u ∈ enforce_grounded_citations answer allowed) :
    '#' ∉ u.data := by
  rw [enforce_eq answer allowed hne] at hu
  by_cases hg : groundedList answer allowed = []
  · rw [if_pos hg] at hu
    obtain ⟨v, hv, heq⟩ := mem_allowedSetList (List.take_subset _ _ hu)
    exact heq ▸ stripFrag_no_hash v
  · rw [if_neg hg] at hu
    obtain ⟨v, hv, heq⟩ := mem_groundedList hu
    exact heq ▸ stripFrag_no_hash v

/-- C9 (witness). The theorem applied at a concrete input. -/
theorem C9_results_are_fragment_stripped_witness :
    '#' ∉ ("https://a.com/1" : String).data :=
  C9_results_are_fragment_stripped "" ["https://a.com/1#x"] (by decide)
    "https://a.com/1" (by decide)

/-- C7 (confirmed). `extract_urls` returns no exact-string duplicates and
lists each URL at the position of its first occurrence among the raw
matches (first-occurrence order); a URL cited twice appears once, and
empty or `None` input yields the empty list. -/
theorem C7_extract_urls_dedup_first_order (s : String) :
    (extract_urls s).Nodup ∧
      (extract_urls s).Pairwise
        (fun a b => firstIdx a (rawUrls s) < firstIdx b (rawUrls s)) ∧
      (∀ u, u ∈ extract_urls s ↔ u ∈ rawUrls s) ∧
      extract_urls "see http://a.com and http://a.com again" = ["http://a.com"] ∧
      extractUrlsOpt none = [] ∧
      extract_urls "" = [] := by
  refine ⟨?_, ?_, ?_, by decide, by decide, by decide⟩
  · by_cases hs : s = ""
    · simp [extract_urls, hs]
    · rw [extract_urls, if_neg hs]
      exact dedupSeen_nodup _ _
  · by_cases hs : s = ""
    · simp [extract_urls, hs]
    · rw [extract_urls, if_neg hs]
      exact dedupSeen_pairwise_firstIdx _ _
  · intro u
    by_cases hs : s = ""
    · subst hs
      constructor
      · intro h; simp [extract_urls] at h
      · intro h
        have : rawUrls "" = [] := by decide
        rw [this] at h
        simp at h
    · rw [extract_urls, if_neg hs, mem_dedupSeen]
      simp

/-! Claim C5: the Tool-Output Collector ignores unrelated tool labels. -/

lemma shouldScan_false_of_label {m : LGMessage}
    (h1 : effectiveToolName m ≠ "")
    (h2 : containsSub (toLowerStr (effectiveToolName m)) "tavily" = false)
    (h3 : containsSub (toLowerStr (effectiveToolName m)) "search" = false)
    (h4 : containsSub (toLowerStr (effectiveToolName m)) "tool" = false) :
    shouldScan m = false := by
  simp [shouldScan, h1, h2, h3, h4]

lemma collectGo_skip {m : LGMessage} (hm : shouldScan m = false) :
    ∀ (pre post : List LGMessage) (seen : List String),
      collectGo seen (pre ++ m :: post) = collectGo seen (pre ++ post) := by
  intro pre
  induction pre with
  | nil =>
    intro post seen
    simp [collectGo, hm]
  | cons x xs ih =>
    intro post seen
    by_cases hx : shouldScan x = true
    · simp [collectGo, hx, ih]
    · simp [collectGo, hx, ih]

/-- C5 (confirmed). A message whose (non-empty) tool-name label contains
none of `tavily`, `search`, `tool` in lower case contributes nothing to
the collector's output, whatever its content: removing it from the
message list leaves the result unchanged. -/
theorem C5_collector_ignores_unrelated_tools (pre post : List LGMessage)
    (m : LGMessage) (h1 : effectiveToolName m ≠ "")
    (h2 : containsSub (toLowerStr (effectiveToolName m)) "tavily" = false)
    (h3 : containsSub (toLowerStr (effectiveToolName m)) "search" = false)
    (h4 : containsSub (toLowerStr (effectiveToolName m)) "tool" = false) :
    collect_urls_from_langgraph_messages (pre ++ m :: post) =
      collect_urls_from_langgraph_messages (pre ++ post) := by
  unfold collect_urls_from_langgraph_messages
  exact collectGo_skip (shouldScan_false_of_label h1 h2 h3 h4) pre post []

/-- C5 (witness). The theorem applied to a `"calculator"` message holding
a URL, alongside a genuine Tavily message. -/
theorem C5_collector_ignores_unrelated_tools_witness :
    effectiveToolName ⟨"calculator", "", "result http://evil.com ok", "f"⟩ ≠ "" ∧
      collect_urls_from_langgraph_messages
          ([] ++ ⟨"calculator", "", "result http://evil.com ok", "f"⟩ ::
            [⟨"tavily_search", "", "see http://good.com", "g"⟩]) =
        collect_urls_from_langgraph_messages
          ([] ++ [⟨"tavily_search", "", "see http://good.com", "g"⟩]) :=
  ⟨by decide,
    C5_collector_ignores_unrelated_tools []
      [⟨"tavily_search", "", "see http://good.com", "g"⟩]
      ⟨"calculator", "", "result http://evil.com ok", "f"⟩
      (by decide) (by decide) (by decide) (by decide)⟩

/-! Claim C6: idempotence of preamble injection. -/

lemma normalize_pairs (h : List (String × String)) :
    normalize_history (h.map (fun rc => RawMsg.pair rc.1 rc.2)) = h := by
  induction h with
  | nil => rfl
  | cons x xs ih => simp [normalize_history, normItem] at ih ⊢; exact ih

lemma injectPairs_nil (p : String) : injectPairs [] p = [("system", p)] := rfl

lemma injectPairs_cons (r c : String) (t : List (String × String)) (p : String) :
    injectPairs ((r, c) :: t) p =
      if r = "system" ∧ containsSub c p = true then (r, c) :: t
      else ("system", p) :: (r, c) :: t := by
  unfold injectPairs inject_preamble
  rw [show normalize_history (((r, c) :: t).map (fun rc => RawMsg.pair rc.1 rc.2)) =
      (r, c) :: t from normalize_pairs ((r, c) :: t)]
  by_cases h1 : r = "system"
  · by_cases h2 : containsSub c p = true
    · simp [h1, h2]
    · simp [h1, h2]
  · simp [h1]

lemma containsSub_refl (s : String) : containsSub s s = true := by
  have hpref : ∀ l : List Char, l.isPrefixOf l = true := by
    intro l
    induction l with
    | nil => rfl
    | cons a as ih => simp [List.isPrefixOf, ih]
  cases hd : s.data with
  | nil => simp [containsSub, hd]
  | cons a as =>
    simp only [containsSub, hd, List.tails]
    simp [List.any_cons, hpref (a :: as)]

/-- C6 (counterexample). The claim as stated is false for a history that
already begins with an unrelated system message: the first invocation
prepends the preamble in front of it, the second leaves the result
unchanged — so the "full output history" of the second call carries two
system messages, both at the front, not exactly one. -/
theorem C6_counterexample :
    injectPairs (injectPairs [("system", "other")] "p") "p" =
        injectPairs [("system", "other")] "p" ∧
      (injectPairs [("system", "other")] "p").countP
          (fun m => m.1 == "system") = 2 ∧
      (injectPairs [("system", "other")] "p").head? = some ("system", "p") ∧
      (injectPairs [("system", "other")] "p").tail.head? =
        some ("system", "other") := by
  refine ⟨by decide, by decide, by decide, by decide⟩

/-- C6 (amended). Injection is idempotent: a history whose first message
is a system message containing the preamble is returned unchanged (last
conjunct), so re-invoking the agent loop on the first call's full output
history — the injected history plus whatever the agent appended — adds
nothing; and provided the original history and the appended messages
contain no system-role message of their own, that output history has
exactly one system message, at position 0, equal to the preamble. -/
theorem C6_preamble_injection_idempotent (h appended : List (String × String))
    (p : String) (hh : ∀ m ∈ h, m.1 ≠ "system")
    (ha : ∀ m ∈ appended, m.1 ≠ "system") :
    injectPairs (injectPairs h p ++ appended) p = injectPairs h p ++ appended ∧
      (injectPairs h p ++ appended).head? = some ("system", p) ∧
      (injectPairs h p ++ appended).countP (fun m => m.1 == "system") = 1 ∧
      ∀ (r c : String) (t : List (String × String)),
        r = "system" → containsSub c p = true →
        injectPairs ((r, c) :: t) p = (r, c) :: t := by
  have hinj : injectPairs h p = ("system", p) :: h := by
    cases h with
    | nil => exact injectPairs_nil p
    | cons x xs =>
      obtain ⟨r, c⟩ := x
      rw [injectPairs_cons]
      rw [if_neg (fun hc => hh (r, c) (List.mem_cons_self _ _) hc.1)]
  have hout : injectPairs h p ++ appended = ("system", p) :: (h ++ appended) := by
    rw [hinj]; rfl
  refine ⟨?_, ?_, ?_, ?_⟩
  · rw [hout, injectPairs_cons, if_pos ⟨rfl, containsSub_refl p⟩]
  · rw [hout]; rfl
  · rw [hout, List.countP_cons]
    have hz : (h ++ appended).countP (fun m => m.1 == "system") = 0 := by
      rw [List.countP_eq_zero]
      intro a hma
      rcases List.mem_append.mp hma with hma | hma
      · simpa using hh a hma
      · simpa using ha a hma
    simp [hz]
  · intro r c t hr hc
    rw [injectPairs_cons, if_pos ⟨hr, hc⟩]

/-- C6 (witness). The amended theorem applied at a concrete input. -/
theorem C6_preamble_injection_idempotent_witness :
    injectPairs (injectPairs [("user", "hi")] "pre" ++ [("assistant", "ok")])
          "pre" =
        injectPairs [("user", "hi")] "pre" ++ [("assistant", "ok")] ∧
      (injectPairs [("user", "hi")] "pre" ++ [("assistant", "ok")]).head? =
        some ("system", "pre") ∧
      (injectPairs [("user", "hi")] "pre" ++
          [("assistant", "ok")]).countP (fun m => m.1 == "system") = 1 ∧
      ∀ (r c : String) (t : List (String × String)),
        r = "system" → containsSub c "pre" = true →
        injectPairs ((r, c) :: t) "pre" = (r, c) :: t :=
  C6_preamble_injection_idempotent [("user", "hi")] [("assistant", "ok")] "pre"
    (by decide) (by decide)

/-! Claim C8: missing search credential fails at construction. -/

/-- C8 (confirmed). When `TAVILY_API_KEY` is unset while `OPENAI_API_KEY`
holds a non-empty value, `build_agent` stops with the configuration
error naming `TAVILY_API_KEY`; the error is produced by the credential
check, which precedes the model and search-tool construction in the
sequencing of `build_agent`, so no model or search call is attempted. -/
theorem C8_missing_tavily_key_fails_at_construction (env : Env)
    (mn : Option String) (v : String)
    (hopen : getenv env "OPENAI_API_KEY" = some v) (hv : v ≠ "")
    (htav : getenv env "TAVILY_API_KEY" = none) :
    build_agent env mn = .error (missingEnvMsg "TAVILY_API_KEY") ∧
      containsSub (missingEnvMsg "TAVILY_API_KEY") "TAVILY_API_KEY" = true := by
  constructor
  · have h1 : require_env env "OPENAI_API_KEY" = .ok v := by
      rw [require_env, hopen]
      exact if_neg hv
    have h2 : require_env env "TAVILY_API_KEY" =
        .error (missingEnvMsg "TAVILY_API_KEY") := by
      rw [require_env, htav]
    unfold build_agent
    rw [h1, h2]
    rfl
  · decide

/-- C8 (witness). The theorem applied at a concrete environment with only
the OpenAI key set. -/
theorem C8_missing_tavily_key_fails_at_construction_witness :
    build_agent [("OPENAI_API_KEY", "sk-test")] none =
        .error (missingEnvMsg "TAVILY_API_KEY") ∧
      containsSub (missingEnvMsg "TAVILY_API_KEY") "TAVILY_API_KEY" = true :=
  C8_missing_tavily_key_fails_at_construction [("OPENAI_API_KEY", "sk-test")]
    none "sk-test" (by decide) (by decide) (by decide)

/-! Claim C10: every extracted URL is a scheme-led contiguous substring
of the input, shortened only by right-stripping of `.,);]\x7d`. -/

lemma matchCSS_eq {l r : List Char} (h : matchCSS l = some r) :
    l = ':' :: '/' :: '/' :: r := by
  cases l with
  | nil => simp [matchCSS] at h
  | cons a l1 =>
    cases l1 with
    | nil => simp [matchCSS] at h
    | cons b l2 =>
      cases l2 with
      | nil => simp [matchCSS] at h
      | cons c rest =>
        by_cases hc : a = ':' ∧ b = '/' ∧ c = '/'
        · obtain ⟨rfl, rfl, rfl⟩ := hc
          simp [matchCSS] at h
          rw [h]
        · rw [matchCSS, if_neg hc] at h
          exact absurd h (by simp)

lemma matchScheme_spec {cs sch rest : List Char}
    (h : matchScheme cs = some (sch, rest)) :
    cs = sch ++ rest ∧
      (∀ t, (httpPrefix7 (sch ++ t) || httpPrefix8 (sch ++ t)) = true) ∧
      ∃ q, sch = q ++ ['/'] := by
  cases cs with
  | nil => simp [matchScheme] at h
  | cons c1 cs1 =>
  cases cs1 with
  | nil => simp [matchScheme] at h
  | cons c2 cs2 =>
  cases cs2 with
  | nil => simp [matchScheme] at h
  | cons c3 cs3 =>
  cases cs3 with
  | nil => simp [matchScheme] at h
  | cons c4 rest0 =>
  simp only [matchScheme] at h
  by_cases h4 : (isCI 'h' c1 && isCI 't' c2 && isCI 't' c3 && isCI 'p' c4) = true
  · rw [if_pos h4] at h
    simp only [Bool.and_eq_true] at h4
    obtain ⟨⟨⟨hh, ht1⟩, ht2⟩, hp⟩ := h4
    cases rest0 with
    | nil => simp at h
    | cons c5 rest2 =>
      dsimp only at h
      by_cases h5 : isCI 's' c5 = true
      · rw [if_pos h5] at h
        cases hcss : matchCSS rest2 with
        | some rest3 =>
          rw [hcss] at h
          simp only [Option.some.injEq, Prod.mk.injEq] at h
          obtain ⟨h1, h2⟩ := h
          subst h1
          subst h2
          have hr2 := matchCSS_eq hcss
          subst hr2
          refine ⟨rfl, ?_, ⟨[c1, c2, c3, c4, c5, ':', '/'], rfl⟩⟩
          intro t
          simp [httpPrefix8, hh, ht1, ht2, hp, h5]
        | none =>
          rw [hcss] at h
          cases hcss2 : matchCSS (c5 :: rest2) with
          | some rest3 =>
            rw [hcss2] at h
            simp only [Option.some.injEq, Prod.mk.injEq] at h
            obtain ⟨h1, h2⟩ := h
            subst h1
            subst h2
            have hr2 := matchCSS_eq hcss2
            obtain ⟨rfl, hr2'⟩ : c5 = ':' ∧ rest2 = '/' :: '/' :: rest3 := by
              exact ⟨List.head_eq_of_cons_eq hr2, List.tail_eq_of_cons_eq hr2⟩
            subst hr2'
            refine ⟨rfl, ?_, ⟨[c1, c2, c3, c4, ':', '/'], rfl⟩⟩
            intro t
            simp [httpPrefix7, hh, ht1, ht2, hp]
          | none =>
            rw [hcss2] at h
            exact absurd h (by simp)
      · rw [if_neg h5] at h
        cases hcss2 : matchCSS (c5 :: rest2) with
        | some rest3 =>
          rw [hcss2] at h
          simp only [Option.some.injEq, Prod.mk.injEq] at h
          obtain ⟨h1, h2⟩ := h
          subst h1
          subst h2
          have hr2 := matchCSS_eq hcss2
          obtain ⟨rfl, hr2'⟩ : c5 = ':' ∧ rest2 = '/' :: '/' :: rest3 := by
            exact ⟨List.head_eq_of_cons_eq hr2, List.tail_eq_of_cons_eq hr2⟩
          subst hr2'
          refine ⟨rfl, ?_, ⟨[c1, c2, c3, c4, ':', '/'], rfl⟩⟩
          intro t
          simp [httpPrefix7, hh, ht1, ht2, hp]
        | none =>
          rw [hcss2] at h
          exact absurd h (by simp)
  · rw [if_neg h4] at h
    exact absurd h (by simp)

lemma tryMatch_spec {cs m rest' : List Char}
    (h : tryMatch cs = some (m, rest')) :
    cs = m ++ rest' ∧
      ∃ sch body, m = sch ++ body ∧
        (∀ t, (httpPrefix7 (sch ++ t) || httpPrefix8 (sch ++ t)) = true) ∧
        ∃ q, sch = q ++ ['/'] := by
  unfold tryMatch at h
  cases hms : matchScheme cs with
  | none => rw [hms] at h; exact absurd h (by simp)
  | some pr =>
    obtain ⟨sch, rest⟩ := pr
    rw [hms] at h
    dsimp only at h
    by_cases hb : (rest.takeWhile isBodyChar).isEmpty = true
    · rw [if_pos hb] at h
      exact absurd h (by simp)
    · rw [if_neg hb] at h
      simp only [Option.some.injEq, Prod.mk.injEq] at h
      obtain ⟨h1, h2⟩ := h
      subst h1
      subst h2
      obtain ⟨hcs, hpre, hsl⟩ := matchScheme_spec hms
      constructor
      · rw [hcs]
        conv_lhs => rw [← List.takeWhile_append_dropWhile (p := isBodyChar) (l := rest)]
        rw [List.append_assoc]
      · exact ⟨sch, rest.takeWhile isBodyChar, rfl, hpre, hsl⟩

lemma tryMatch_length {cs m rest' : List Char}
    (h : tryMatch cs = some (m, rest')) :
    rest'.length < cs.length := by
  obtain ⟨hcs, sch, body, hm, hpre, q, hq⟩ := tryMatch_spec h
  have hml : m.length = sch.length + body.length := by
    rw [hm, List.length_append]
  have hsl : sch.length = q.length + 1 := by
    rw [hq, List.length_append, List.length_singleton]
  rw [hcs, List.length_append]
  omega

lemma findUrlsGo_spec :
    ∀ (fuel : Nat) (cs : List Char), cs.length ≤ fuel →
      ∀ m ∈ findUrlsGo fuel cs,
        (∃ pre suf, cs = pre ++ (m ++ suf)) ∧
        ∃ sch body, m = sch ++ body ∧
          (∀ t, (httpPrefix7 (sch ++ t) || httpPrefix8 (sch ++ t)) = true) ∧
          ∃ q, sch = q ++ ['/'] := by
  intro fuel
  induction fuel with
  | zero =>
    intro cs hle m hm
    simp [findUrlsGo] at hm
  | succ n ih =>
    intro cs hle m hm
    cases cs with
    | nil => simp [findUrlsGo] at hm
    | cons c cs' =>
      rw [findUrlsGo] at hm
      cases htm : tryMatch (c :: cs') with
      | none =>
        rw [htm] at hm
        have hle' : cs'.length ≤ n := by
          simpa [List.length_cons] using Nat.lt_succ_iff.mp
            (Nat.lt_of_lt_of_le (Nat.lt_succ_self _) hle)
        obtain ⟨⟨pre, suf, hdec⟩, hsch⟩ := ih cs' hle' m hm
        exact ⟨⟨c :: pre, suf, by rw [hdec]; rfl⟩, hsch⟩
      | some pr =>
        obtain ⟨mm, rest⟩ := pr
        rw [htm] at hm
        obtain ⟨hcs, hstruct⟩ := tryMatch_spec htm
        rcases List.mem_cons.mp hm with rfl | hm'
        · exact ⟨⟨[], rest, by rw [hcs]; rfl⟩, hstruct⟩
        · have hrl : rest.length ≤ n :=
            Nat.lt_succ_iff.mp (Nat.lt_of_lt_of_le (tryMatch_length htm) hle)
          obtain ⟨⟨pre, suf, hdec⟩, hsch⟩ := ih rest hrl m hm'
          refine ⟨⟨mm ++ pre, suf, ?_⟩, hsch⟩
          rw [hcs, hdec, List.append_assoc]

lemma rstripPunct_decomp (l : List Char) :
    ∃ ext, l = rstripPunct l ++ ext ∧ ∀ c ∈ ext, isStripChar c = true := by
  refine ⟨(l.reverse.takeWhile isStripChar).reverse, ?_, ?_⟩
  · conv_lhs => rw [← List.reverse_reverse l,
      ← List.takeWhile_append_dropWhile (p := isStripChar) (l := l.reverse)]
    rw [List.reverse_append]
    rfl
  · intro c hc
    rw [List.mem_reverse] at hc
    exact List.mem_takeWhile_imp hc

lemma rstripPunct_append_slash (p b : List Char) :
    rstripPunct ((p ++ ['/']) ++ b) = (p ++ ['/']) ++ rstripPunct b := by
  unfold rstripPunct
  rw [List.reverse_append, List.dropWhile_append]
  by_cases hb : (b.reverse.dropWhile isStripChar).isEmpty = true
  · rw [if_pos hb]
    have hnil : b.reverse.dropWhile isStripChar = [] := by
      cases hdw : b.reverse.dropWhile isStripChar with
      | nil => rfl
      | cons x xs => rw [hdw] at hb; simp at hb
    have hrev : (p ++ ['/']).reverse = '/' :: p.reverse := by
      rw [List.reverse_append]; rfl
    rw [hrev, List.dropWhile_cons, if_neg (by simp [isStripChar]), hnil]
    simp [hrev]
  · rw [if_neg hb, List.reverse_append, List.reverse_reverse]

/-- C10 (confirmed). Every URL produced by `extract_urls` starts with
`http://` or `https://` up to letter case, and together with a trailing
run `ext` of characters from `.,);]\x7d` it forms a contiguous substring
of the input: the extractor introduces no characters of its own. -/
theorem C10_urls_are_substrings (s u : String) (hu : u ∈ extract_urls s) :
    startsWithHttpCI u = true ∧
      ∃ pre ext suf, s.data = pre ++ ((u.data ++ ext) ++ suf) ∧
        ∀ c ∈ ext, isStripChar c = true := by
  have hu' : u ∈ rawUrls s := by
    by_cases hs : s = ""
    · rw [extract_urls, if_pos hs] at hu
      simp at hu
    · rw [extract_urls, if_neg hs] at hu
      exact ((mem_dedupSeen _ _).mp hu).1
  obtain ⟨m, hm, heq⟩ := List.mem_map.mp hu'
  have hudata : u.data = rstripPunct m := by
    rw [← heq]
  obtain ⟨⟨pre, suf, hdec⟩, sch, body, hmsb, hpre7, q, hq⟩ :=
    findUrlsGo_spec s.data.length s.data le_rfl m hm
  constructor
  · have hstrip : rstripPunct m = sch ++ rstripPunct body := by
      rw [hmsb, hq, rstripPunct_append_slash, ← hq]
    rw [startsWithHttpCI, hudata, hstrip]
    exact hpre7 (rstripPunct body)
  · obtain ⟨ext, hmx, hxall⟩ := rstripPunct_decomp m
    refine ⟨pre, ext, suf, ?_, hxall⟩
    rw [hdec, hudata, ← hmx]

/-- C10 (witness). The theorem applied at a concrete input whose URL is
followed by a stripped period. -/
theorem C10_urls_are_substrings_witness :
    startsWithHttpCI "http://a.com" = true ∧
      ∃ pre ext suf,
        ("see http://a.com. done" : String).data =
          pre ++ ((("http://a.com" : String).data ++ ext) ++ suf) ∧
        ∀ c ∈ ext, isStripChar c = true :=
  C10_urls_are_substrings "see http://a.com. done" "http://a.com" (by decide)

end AskLang
